import Mathlib

/-!
Verification of the pdfchecker content-inspection engine (`pdf.go`).

The Go source is shallowly embedded: a byte buffer is a `List Char`
(each element one byte of the input), every regular expression used by
the engine is translated to an explicit executable matcher with the
same existence-of-a-match semantics, and the top-level `Check`
orchestrator is reproduced with its exact short-circuit order.
-/

set_option maxHeartbeats 1000000

/-- Whitespace class of the Go regexp `\s`, namely tab, newline,
form feed, carriage return and space. -/
def isWS (c : Char) : Bool :=
  c = ' ' || c = '\t' || c = '\n' || c = '\x0c' || c = '\r'

/-- Word-character class of the Go regexp `\b` boundary, namely
ASCII letters, digits and underscore. -/
def isWordChar (c : Char) : Bool :=
  c.isAlpha || c.isDigit || c = '_'

/-- Hexadecimal-digit class `[0-9A-Fa-f]`. -/
def isHexD (c : Char) : Bool :=
  c.isDigit || c = 'a' || c = 'b' || c = 'c' || c = 'd' || c = 'e' || c = 'f'
    || c = 'A' || c = 'B' || c = 'C' || c = 'D' || c = 'E' || c = 'F'

/-- Consume `pat` case-insensitively from the front of `cs`, returning
the remaining suffix on success.  This is the primitive from which the
case-insensitive literal parts of every regex are built. -/
def eatCI : List Char → List Char → Option (List Char)
  | [], cs => some cs
  | _ :: _, [] => none
  | p :: ps, c :: cs => if c.toLower = p.toLower then eatCI ps cs else none

/-- Consume `pat` case-sensitively from the front of `cs` (used for the
`%PDF-` magic-marker search, which `bytes.Contains` performs exactly). -/
def eatLit : List Char → List Char → Option (List Char)
  | [], cs => some cs
  | _ :: _, [] => none
  | p :: ps, c :: cs => if c = p then eatLit ps cs else none

/-- Case-insensitive substring test: `pat` occurs somewhere in `cs`. -/
def subCI (pat : List Char) : List Char → Bool
  | [] => (eatCI pat []).isSome
  | c :: cs => (eatCI pat (c :: cs)).isSome || subCI pat cs

/-- Case-sensitive substring test (Go `bytes.Contains`). -/
def subLit (pat : List Char) : List Char → Bool
  | [] => (eatLit pat []).isSome
  | c :: cs => (eatLit pat (c :: cs)).isSome || subLit pat cs

/-- Greedy whitespace skip, realizing `\s*` in front of a
non-whitespace literal. -/
def skipWS (cs : List Char) : List Char := cs.dropWhile isWS

/-- Existence of a match of the position matcher `p` at some position of
the text (including the end position), the semantics of Go
`MatchString` for the position-independent patterns. -/
def anyPos (p : List Char → Bool) : List Char → Bool
  | [] => p []
  | c :: cs => p (c :: cs) || anyPos p cs

/-- Whitespace collapsing: each maximal run of whitespace characters is
replaced by a single space, the action of Go
`whitespaceRegex.ReplaceAllString(content, " ")`. -/
def collapseWS : List Char → List Char
  | [] => []
  | [c] => [if isWS c then ' ' else c]
  | c1 :: c2 :: cs =>
    if isWS c1 && isWS c2 then collapseWS (c2 :: cs)
    else (if isWS c1 then ' ' else c1) :: collapseWS (c2 :: cs)

/-- Letters of the stream-end keyword. -/
def endstreamKw : List Char := ['e', 'n', 'd', 's', 't', 'r', 'e', 'a', 'm']

/-- Letters of the stream-begin keyword. -/
def streamKw : List Char := ['s', 't', 'r', 'e', 'a', 'm']

/-- Suffix following the earliest case-insensitive occurrence of
`endstream`, realizing the lazy `.*?endstream` part of the
stream-stripping regex. -/
def findEndstream : List Char → Option (List Char)
  | [] => none
  | c :: cs =>
    match eatCI endstreamKw (c :: cs) with
    | some suf => some suf
    | none => findEndstream cs

/-- Word boundary after the `stream` keyword (`stream\b`): the next
character, if any, is not a word character. -/
def boundaryAfter : List Char → Bool
  | [] => true
  | c :: _ => !(isWordChar c)

/-- Match of `(?is)stream\b.*?endstream` starting exactly at the head of
`cs`; on success returns the suffix after the consumed region. -/
def streamMatchAt (cs : List Char) : Option (List Char) :=
  match eatCI streamKw cs with
  | some rest => if boundaryAfter rest then findEndstream rest else none
  | none => none

/-- Fueled scan for `streamRx.ReplaceAllString(content, " ")`: leftmost
matches of the stream regex are replaced by a single space and scanning
resumes after each match.  Fuel bounds the recursion; one character is
consumed per step, so fuel equal to the length is always enough. -/
def stripGo : Nat → List Char → List Char
  | 0, cs => cs
  | _ + 1, [] => []
  | f + 1, c :: cs =>
    match streamMatchAt (c :: cs) with
    | some suf => ' ' :: stripGo f suf
    | none => c :: stripGo f cs

/-- Stream stripping: every region from a `stream` keyword (with word
boundary) to the nearest following `endstream` is replaced by one
space. -/
def stripStreams (cs : List Char) : List Char := stripGo cs.length cs

/-! Keyword letter lists of the signature patterns, all lowercase since
matching is case-insensitive. -/

def javascriptL : List Char := ['j', 'a', 'v', 'a', 's', 'c', 'r', 'i', 'p', 't']

def jsL : List Char := ['j', 's']

def openActionL : List Char := ['o', 'p', 'e', 'n', 'a', 'c', 't', 'i', 'o', 'n']

def appL : List Char := ['a', 'p', 'p']

def evalKwL : List Char := ['e', 'v', 'a', 'l']

def documentL : List Char := ['d', 'o', 'c', 'u', 'm', 'e', 'n', 't']

def thisL : List Char := ['t', 'h', 'i', 's']

def getFieldL : List Char := ['g', 'e', 't', 'f', 'i', 'e', 'l', 'd']

def submitFormL : List Char := ['s', 'u', 'b', 'm', 'i', 't', 'f', 'o', 'r', 'm']

def importDataObjectL : List Char :=
  ['i', 'm', 'p', 'o', 'r', 't', 'd', 'a', 't', 'a', 'o', 'b', 'j', 'e', 'c', 't']

def jsCallL : List Char := ['j', 's', '(']

def acroFormL : List Char := ['a', 'c', 'r', 'o', 'f', 'o', 'r', 'm']

def xfaL : List Char := ['x', 'f', 'a']

def widgetL : List Char := ['w', 'i', 'd', 'g', 'e', 't']

def ftL : List Char := ['f', 't']

def txL : List Char := ['t', 'x']

def chL : List Char := ['c', 'h']

def btnL : List Char := ['b', 't', 'n']

def sigL : List Char := ['s', 'i', 'g']

def goToRL : List Char := ['g', 'o', 't', 'o', 'r']

def launchL : List Char := ['l', 'a', 'u', 'n', 'c', 'h']

def importDataL : List Char := ['i', 'm', 'p', 'o', 'r', 't', 'd', 'a', 't', 'a']

def uriL : List Char := ['u', 'r', 'i']

def httpL : List Char := ['h', 't', 't', 'p']

def schemeSepL : List Char := [':', '/', '/']

def httpUrlL : List Char := ['h', 't', 't', 'p', ':', '/', '/']

def httpsUrlL : List Char := ['h', 't', 't', 'p', 's', ':', '/', '/']

def fileUrlL : List Char := ['f', 'i', 'l', 'e', ':', '/', '/']

def ftpUrlL : List Char := ['f', 't', 'p', ':', '/', '/']

def embeddedFileL : List Char := ['e', 'm', 'b', 'e', 'd', 'd', 'e', 'd', 'f', 'i', 'l', 'e']

def fileAttachmentL : List Char :=
  ['f', 'i', 'l', 'e', 'a', 't', 't', 'a', 'c', 'h', 'm', 'e', 'n', 't']

def fileSpecL : List Char := ['f', 'i', 'l', 'e', 's', 'p', 'e', 'c']

def pdfMagicL : List Char := ['%', 'P', 'D', 'F', '-']

/-- Match of `/\s*KW` at the head of `cs` (case-insensitive keyword
after a slash and optional whitespace). -/
def atSlashKw (kw : List Char) (cs : List Char) : Bool :=
  match cs with
  | c :: rest => c = '/' && (eatCI kw (skipWS rest)).isSome
  | [] => false

/-- Match of `KW\s*T` at the head of `cs` for a single terminator
character `T` such as `.` or `(`. -/
def atKwWsC (kw : List Char) (t : Char) (cs : List Char) : Bool :=
  match eatCI kw cs with
  | some rest =>
    match skipWS rest with
    | c :: _ => c = t
    | [] => false
  | none => false

/-- Match of `/\s*K1\s*/\s*K2` at the head of `cs`, the shape of the
four `/FT/..` form-field-subtype patterns. -/
def atSlashKw2 (k1 k2 : List Char) (cs : List Char) : Bool :=
  match cs with
  | c :: rest =>
    c = '/' &&
      (match eatCI k1 (skipWS rest) with
       | some r2 =>
         (match skipWS r2 with
          | c2 :: r3 => c2 = '/' && (eatCI k2 (skipWS r3)).isSome
          | [] => false)
       | none => false)
  | [] => false

/-- Match of `/\s*KW\b` at the head of `cs`: the keyword must not be
followed by a word character. -/
def atSlashKwEndB (kw : List Char) (cs : List Char) : Bool :=
  match cs with
  | c :: rest =>
    c = '/' &&
      (match eatCI kw (skipWS rest) with
       | some [] => true
       | some (c2 :: _) => !(isWordChar c2)
       | none => false)
  | [] => false

/-- Match of `JS\(\s*#(?:[0-9A-Fa-f]{2,})+` at the head of `cs`. -/
def atJsHexCall (cs : List Char) : Bool :=
  match eatCI jsCallL cs with
  | some rest =>
    match skipWS rest with
    | c :: hs => c = '#' && 2 ≤ (hs.takeWhile isHexD).length
    | [] => false
  | none => false

/-- Disjunction of the eleven `jsPatterns` regexes at one position. -/
def jsPatternAt (cs : List Char) : Bool :=
  atSlashKw javascriptL cs || atSlashKw jsL cs || atSlashKw openActionL cs ||
  atKwWsC appL '.' cs || atKwWsC evalKwL '(' cs || atKwWsC documentL '.' cs ||
  atKwWsC thisL '.' cs || atKwWsC getFieldL '(' cs || atKwWsC submitFormL '(' cs ||
  atKwWsC importDataObjectL '(' cs || atJsHexCall cs

/-- Some `jsPatterns` regex matches somewhere in the text. -/
def jsAny (cs : List Char) : Bool := anyPos jsPatternAt cs

/-- The scripting-vocabulary test `(?i)javascript|js` of `jsWordRegex`:
either word occurs as a substring, case-insensitively and without word
boundaries. -/
def hasJsWord (cs : List Char) : Bool := subCI javascriptL cs || subCI jsL cs

/-- Fueled scan realizing `jsHexRx.FindAllStringIndex` plus the per-match
80-character context-window test of `checkForJavaScript`: at each `#`
followed by at least 8 hex digits, the preceding 80 characters (held
reversed in `prevRev`) are searched for the scripting vocabulary; on a
miss, scanning resumes after the greedily matched hex pairs. -/
def hexScanF : Nat → List Char → List Char → Bool
  | 0, _, _ => false
  | f + 1, prevRev, cs =>
    match cs with
    | [] => false
    | c :: cs2 =>
      if c = '#' ∧ 8 ≤ (cs2.takeWhile isHexD).length then
        if hasJsWord ((prevRev.take 80).reverse) then true
        else
          hexScanF f
            ((cs2.take (2 * ((cs2.takeWhile isHexD).length / 2))).reverse ++ c :: prevRev)
            (cs2.drop (2 * ((cs2.takeWhile isHexD).length / 2)))
      else hexScanF f (c :: prevRev) cs2

/-- Hex-obfuscation window heuristic over the stream-stripped text. -/
def hexScan (cs : List Char) : Bool := hexScanF cs.length [] cs

/-- Match of `<([0-9A-Fa-f]{4,})>` at the head of `cs`. -/
def atAngleHex : List Char → Bool
  | c :: rest =>
    c = '<' && (4 ≤ (rest.takeWhile isHexD).length) &&
      (match rest.dropWhile isHexD with
       | c2 :: _ => c2 = '>'
       | [] => false)
  | [] => false

/-- Some angle-bracket-delimited hex string of 4 or more hex digits
occurs in the text (`jsHexAngle.MatchString`). -/
def angleAny (cs : List Char) : Bool := anyPos atAngleHex cs

/-- Closed error taxonomy of the checker, one kind per detector. -/
inductive PdfError where
  | invalidStructure
  | scriptDetected
  | formDetected
  | externalRefDetected
  | embeddedFileDetected
deriving DecidableEq, Repr

/-- Script detector `checkForJavaScript`: strips streams, collapses
whitespace, tries the direct patterns, then the `#`-hex window
heuristic, then the angle-bracket co-occurrence heuristic. -/
def checkForJavaScript (content : List Char) : Option PdfError :=
  if jsAny (collapseWS (stripStreams content)) then some .scriptDetected
  else if hexScan (stripStreams content) then some .scriptDetected
  else if angleAny (stripStreams content) && hasJsWord (stripStreams content) then
    some .scriptDetected
  else none

/-- Disjunction of the seven `formPatternsRegex` regexes at one position. -/
def formPatternAt (cs : List Char) : Bool :=
  atSlashKw acroFormL cs || atSlashKw xfaL cs || atSlashKw widgetL cs ||
  atSlashKw2 ftL txL cs || atSlashKw2 ftL chL cs || atSlashKw2 ftL btnL cs ||
  atSlashKw2 ftL sigL cs

/-- Some form pattern matches somewhere in the raw text. -/
def formsAny (cs : List Char) : Bool := anyPos formPatternAt cs

/-- Form detector `checkForForms`: matches the form patterns on the raw,
unnormalized text. -/
def checkForForms (content : List Char) : Option PdfError :=
  if formsAny content then some .formDetected else none

/-- No word character immediately before the current position
(`\b` at the start of the URL-scheme patterns). -/
def noWordBefore : Option Char → Bool
  | none => true
  | some c => !(isWordChar c)

/-- Match of `\bhttps?://` at the current position, given the previous
character. -/
def atHttpUrl (cs : List Char) : Bool :=
  match eatCI httpL cs with
  | some rest =>
    (eatCI schemeSepL rest).isSome ||
      (match rest with
       | c :: r2 => c.toLower = 's' && (eatCI schemeSepL r2).isSome
       | [] => false)
  | none => false

/-- Match of `\bfile://` at the current position (boundary handled by
the caller). -/
def atFileUrl (cs : List Char) : Bool := (eatCI fileUrlL cs).isSome

/-- Match of `\bftp://` at the current position (boundary handled by
the caller). -/
def atFtpUrl (cs : List Char) : Bool := (eatCI ftpUrlL cs).isSome

/-- Disjunction of the nine `externalRegexes` regexes at one position,
threading the previous character for the `\b` boundaries. -/
def extPatternAt (prev : Option Char) (cs : List Char) : Bool :=
  atSlashKw goToRL cs || atSlashKw launchL cs || atSlashKw importDataL cs ||
  atSlashKw submitFormL cs || atSlashKwEndB uriL cs || atKwWsC uriL '(' cs ||
  (noWordBefore prev && (atHttpUrl cs || atFileUrl cs || atFtpUrl cs))

/-- Position scan threading the previous character, for the
boundary-sensitive external patterns. -/
def anyPosP (p : Option Char → List Char → Bool) : Option Char → List Char → Bool
  | prev, [] => p prev []
  | prev, c :: cs => p prev (c :: cs) || anyPosP p (some c) cs

/-- Some external-reference pattern matches somewhere in the text. -/
def extAny (cs : List Char) : Bool := anyPosP extPatternAt none cs

/-- External-reference detector `checkForExternalReferences`: collapses
whitespace (without stripping streams) and matches the external
patterns. -/
def checkForExternalReferences (content : List Char) : Option PdfError :=
  if extAny (collapseWS content) then some .externalRefDetected else none

/-- Disjunction of the three `embeddedFilesRegex` regexes at one position. -/
def embPatternAt (cs : List Char) : Bool :=
  atSlashKw embeddedFileL cs || atSlashKw fileAttachmentL cs || atSlashKw fileSpecL cs

/-- Some embedded-file pattern matches somewhere in the raw text. -/
def embAny (cs : List Char) : Bool := anyPos embPatternAt cs

/-- Embedded-file detector `checkForEmbeddedFiles` on the raw text. -/
def checkForEmbeddedFiles (content : List Char) : Option PdfError :=
  if embAny content then some .embeddedFileDetected else none

/-- Header validation: the magic marker `%PDF-` occurs within the first
`min 1024 (length data)` bytes. -/
def headerOk (data : List Char) : Bool := subLit pdfMagicL (data.take 1024)

/-- Top-level `Check` orchestrator: structure validation, then the four
detectors in their fixed order, short-circuiting at the first error. -/
def Check (data : List Char) : Option PdfError :=
  if data.isEmpty then some .invalidStructure
  else if !(headerOk data) then some .invalidStructure
  else
    match checkForJavaScript data with
    | some e => some e
    | none =>
      match checkForForms data with
      | some e => some e
      | none =>
        match checkForExternalReferences data with
        | some e => some e
        | none =>
          match checkForEmbeddedFiles data with
          | some e => some e
          | none => none

/-! Concrete example buffers used by the claim theorems, witnesses and
counterexamples. -/

/-- Buffer with no magic marker anywhere. -/
def exNoHeader : String := "a document without any magic marker"

/-- Buffer matching a script pattern and a form pattern but with no header. -/
def exScriptForm : String := "/JavaScript /AcroForm"

/-- Buffer with header matching both a script and a form pattern. -/
def exHdrScriptForm : String := "%PDF-1.4 /JavaScript /AcroForm"

/-- Buffer with header whose script marker has a newline inside the keyword. -/
def exSplitKeyword : String := "%PDF-1.4 /Java\nScript"

/-- Normalized text of `exSplitKeyword`: the keyword stays split. -/
def exSplitCollapsed : String := "%PDF-1.4 /Java Script"

/-- Buffer with header and a `/ JAVASCRIPT` marker, whitespace between the
slash and the keyword only. -/
def exSpacedMarker : String := "%PDF-1.4 / JAVASCRIPT data"

def exSpacedA : String := "%PDF-1.4 "

def exSpacedK : String := "JAVASCRIPT"

def exSpacedB : String := " data"

/-- Buffer with header, a json token and an angle-bracket hex string. -/
def exJsonAngle : String := "%PDF-1.4 json <ABCD>"

/-- Headerless text with a json token and an angle-bracket hex string, fed
directly to the script detector. -/
def exJsonNoHdr : String := "json <ABCD>"

def exJsonA : String := "json "

def exJsonH : String := "ABCD"

/-- Buffer with header, a js token and a hash-prefixed hex run. -/
def exHexData : String := "%PDF-1.4 js #DEADBEEF"

def exHexW : String := "%PDF-1.4 js "

def exHexHx : String := "DEADBEEF"

/-- Buffer with header and a text form field subtype marker. -/
def exFormData : String := "%PDF-1.4 /FT/Tx"

def exFormA : String := "%PDF-1.4 "

def exFormF : String := "FT"

def exFormK : String := "Tx"

/-- Buffer with header whose only URL lives inside a stream region. -/
def exUrlData : String := "%PDF-1.4\nstream\nhttp://x\nendstream"

def exUrlA : String := "%PDF-1.4\nstream\n"

def exUrlA0 : String := "%PDF-1.4\nstream"

def exUrlS : String := "http://"

def exUrlB : String := "x\nendstream"

/-- Minimal clean document: header, catalog, pages and page objects only. -/
def exCleanPdf : String :=
  "%PDF-1.4\n1 0 obj<</Type/Catalog/Pages 2 0 R>>endobj 2 0 obj<</Type/Pages/Kids[3 0 R]>>endobj 3 0 obj<</Type/Page>>endobj %%EOF"

/-- Header and stream-begin marker of the stream-framing buffers. -/
def pdfStreamHdr : List Char :=
  ['%', 'P', 'D', 'F', '-', '1', '.', '4', '\n', 's', 't', 'r', 'e', 'a', 'm', '\n']

/-- Stream-end marker of the stream-framing buffers. -/
def pdfStreamEnd : List Char := '\n' :: endstreamKw

/-- Buffer whose whole body after the header is one stream region holding
`payload`. -/
def pdfStreamFrame (payload : List Char) : List Char :=
  pdfStreamHdr ++ (payload ++ pdfStreamEnd)

/-- Expected stream-stripped text of `pdfStreamFrame`: the region is
replaced by a single space. -/
def pdfStreamStripped : List Char :=
  ['%', 'P', 'D', 'F', '-', '1', '.', '4', '\n', ' ']

/-- Payload used by the stream-exclusion witness. -/
def exStreamPayload : String := "app."

/-! Helper lemmas about the matching primitives. -/

theorem eatCI_of_map_toLower :
    ∀ (kw xs r : List Char), xs.map Char.toLower = kw.map Char.toLower →
      eatCI kw (xs ++ r) = some r := by
  intro kw
  induction kw with
  | nil =>
    intro xs r h
    have hx : xs = [] := by
      cases xs with
      | nil => rfl
      | cons a as => simp at h
    subst hx
    rfl
  | cons k ks ih =>
    intro xs r h
    cases xs with
    | nil => simp at h
    | cons x xs2 =>
      simp only [List.map_cons, List.cons.injEq] at h
      simp only [List.cons_append, eatCI, h.1, if_pos]
      exact ih xs2 r h.2

theorem eatCI_append_split :
    ∀ (k1 k2 cs : List Char),
      eatCI (k1 ++ k2) cs = (eatCI k1 cs).bind (eatCI k2) := by
  intro k1
  induction k1 with
  | nil => intro k2 cs; rfl
  | cons p ps ih =>
    intro k2 cs
    cases cs with
    | nil => rfl
    | cons c cs2 =>
      simp only [List.cons_append, eatCI]
      by_cases h : c.toLower = p.toLower
      · simp only [h, if_pos rfl]
        exact ih k2 cs2
      · simp only [if_neg h, Option.bind]

theorem eatCI_cons_inv {p : Char} {ps cs suf : List Char}
    (h : eatCI (p :: ps) cs = some suf) :
    ∃ c cs2, cs = c :: cs2 ∧ c.toLower = p.toLower ∧ eatCI ps cs2 = some suf := by
  cases cs with
  | nil => simp [eatCI] at h
  | cons c cs2 =>
    simp only [eatCI] at h
    by_cases hc : c.toLower = p.toLower
    · exact ⟨c, cs2, rfl, hc, by rwa [if_pos hc] at h⟩
    · rw [if_neg hc] at h; cases h

theorem eatCI_some_decomp :
    ∀ (pat cs suf : List Char), eatCI pat cs = some suf →
      ∃ e, cs = e ++ suf ∧ e.map Char.toLower = pat.map Char.toLower := by
  intro pat
  induction pat with
  | nil =>
    intro cs suf h
    simp only [eatCI, Option.some.injEq] at h
    exact ⟨[], by simp [h], by simp⟩
  | cons p ps ih =>
    intro cs suf h
    obtain ⟨c, cs2, rfl, hc, h2⟩ := eatCI_cons_inv h
    obtain ⟨e, rfl, he⟩ := ih cs2 suf h2
    exact ⟨c :: e, rfl, by simp [hc, he]⟩

theorem eatCI_length {pat cs suf : List Char} (h : eatCI pat cs = some suf) :
    suf.length + pat.length = cs.length := by
  obtain ⟨e, rfl, he⟩ := eatCI_some_decomp pat cs suf h
  have : e.length = pat.length := by
    have := congrArg List.length he
    simpa using this
  simp [this, Nat.add_comm]

theorem eatCI_extend :
    ∀ (pat x y suf : List Char), eatCI pat (x ++ y) = some suf →
      (∃ sx, eatCI pat x = some sx ∧ suf = sx ++ y) ∨
      (∃ p1 p2, pat = p1 ++ p2 ∧ p2 ≠ [] ∧ eatCI p1 x = some [] ∧ eatCI p2 y = some suf) := by
  intro pat
  induction pat with
  | nil =>
    intro x y suf h
    simp only [eatCI, Option.some.injEq] at h
    exact Or.inl ⟨x, rfl, h.symm⟩
  | cons p ps ih =>
    intro x y suf h
    cases x with
    | nil =>
      refine Or.inr ⟨[], p :: ps, rfl, by simp, rfl, ?_⟩
      simpa using h
    | cons a x2 =>
      simp only [List.cons_append, eatCI] at h
      by_cases hc : a.toLower = p.toLower
      · rw [if_pos hc] at h
        rcases ih x2 y suf h with ⟨sx, hsx, hsuf⟩ | ⟨p1, p2, hsplit, hne, h1, hy⟩
        · exact Or.inl ⟨sx, by simp [eatCI, hc, hsx], hsuf⟩
        · exact Or.inr ⟨p :: p1, p2, by simp [hsplit], hne, by simp [eatCI, hc, h1], hy⟩
      · rw [if_neg hc] at h; cases h

theorem subCI_of_eat {pat cs : List Char} (h : (eatCI pat cs).isSome = true) :
    subCI pat cs = true := by
  cases cs with
  | nil => simpa [subCI] using h
  | cons c cs2 => simp [subCI, h]

theorem subCI_append_left {pat r : List Char} (h : subCI pat r = true) :
    ∀ a, subCI pat (a ++ r) = true := by
  intro a
  induction a with
  | nil => simpa using h
  | cons x xs ih =>
    simp only [List.cons_append, subCI, List.append_eq]
    rw [ih]
    simp

theorem subLit_of_eat {pat cs : List Char} (h : (eatLit pat cs).isSome = true) :
    subLit pat cs = true := by
  cases cs with
  | nil => simpa [subLit] using h
  | cons c cs2 => simp [subLit, h]

theorem eatLit_take :
    ∀ (pat cs suf : List Char) (n : Nat), eatLit pat cs = some suf →
      pat.length ≤ n → ∃ s2, eatLit pat (cs.take n) = some s2 := by
  intro pat
  induction pat with
  | nil => intro cs suf n _ _; exact ⟨cs.take n, rfl⟩
  | cons p ps ih =>
    intro cs suf n h hn
    cases cs with
    | nil => simp [eatLit] at h
    | cons c cs2 =>
      simp only [eatLit] at h
      by_cases hc : c = p
      · rw [if_pos hc] at h
        obtain ⟨m, rfl⟩ : ∃ m, n = m + 1 := by
          cases n with
          | zero => simp at hn
          | succ m => exact ⟨m, rfl⟩
        obtain ⟨s2, hs2⟩ := ih cs2 suf m h (by simpa using hn)
        exact ⟨s2, by simp [List.take_succ_cons, eatLit, hc, hs2]⟩
      · rw [if_neg hc] at h; cases h

theorem headerOk_of_eatLit {data suf : List Char}
    (h : eatLit pdfMagicL data = some suf) : headerOk data = true := by
  obtain ⟨s2, h2⟩ := eatLit_take pdfMagicL data suf 1024 h (by norm_num [pdfMagicL])
  exact subLit_of_eat (by rw [h2]; rfl)

theorem headerOk_ne_nil {data : List Char} (h : headerOk data = true) : data ≠ [] := by
  intro hn
  rw [hn] at h
  exact absurd h (by decide)

/-! Character facts and whitespace lemmas. -/

theorem toLower_of_isWS {c : Char} (h : isWS c = true) : c.toLower = c := by
  simp only [isWS, Bool.or_eq_true, decide_eq_true_eq] at h
  rcases h with ((((h | h) | h) | h) | h) <;> subst h <;> decide

theorem isWS_false_of_toLower {c x : Char} (h : c.toLower = x) (hx : isWS x = false) :
    isWS c = false := by
  by_contra hc
  have hc2 : isWS c = true := by
    cases h2 : isWS c
    · exact absurd h2 hc
    · rfl
  have := toLower_of_isWS hc2
  rw [this] at h
  subst h
  rw [hc2] at hx
  cases hx

theorem all_nonws_of_ciEq {k kw : List Char}
    (hmap : k.map Char.toLower = kw.map Char.toLower)
    (hkw : ∀ x ∈ kw, isWS x = false ∧ x.toLower = x) :
    ∀ c ∈ k, isWS c = false := by
  intro c hc
  have hmem : c.toLower ∈ kw.map Char.toLower := by
    rw [← hmap]
    exact List.mem_map_of_mem _ hc
  obtain ⟨x, hxmem, hx⟩ := List.mem_map.mp hmem
  obtain ⟨hx1, hx2⟩ := hkw x hxmem
  exact isWS_false_of_toLower (by rw [← hx, hx2]) hx1

theorem skipWS_append {w : List Char} (hw : w.all isWS = true) :
    ∀ (c : Char) (r : List Char), isWS c = false → skipWS (w ++ c :: r) = c :: r := by
  induction w with
  | nil =>
    intro c r hc
    simp [skipWS, List.dropWhile_cons, hc]
  | cons x xs ih =>
    intro c r hc
    simp only [List.all_cons, Bool.and_eq_true] at hw
    simp only [List.cons_append, skipWS, List.dropWhile_cons, hw.1, if_pos]
    exact ih hw.2 c r hc

theorem takeWhile_length_ge {p : Char → Bool} :
    ∀ (xs r : List Char), xs.all p = true → xs.length ≤ ((xs ++ r).takeWhile p).length := by
  intro xs
  induction xs with
  | nil => intro r _; simp
  | cons x xs2 ih =>
    intro r h
    simp only [List.all_cons, Bool.and_eq_true] at h
    simp only [List.cons_append, List.takeWhile_cons, h.1, if_pos, List.length_cons]
    exact Nat.succ_le_succ (ih r h.2)

theorem takeWhile_append_all {p : Char → Bool} :
    ∀ (xs : List Char) (y : Char) (ys : List Char), xs.all p = true → p y = false →
      (xs ++ y :: ys).takeWhile p = xs ∧ (xs ++ y :: ys).dropWhile p = y :: ys := by
  intro xs
  induction xs with
  | nil =>
    intro y ys _ hy
    constructor
    · simp [List.takeWhile_cons, hy]
    · simp [List.dropWhile_cons, hy]
  | cons x xs2 ih =>
    intro y ys h hy
    simp only [List.all_cons, Bool.and_eq_true] at h
    obtain ⟨h1, h2⟩ := ih y ys h.2 hy
    constructor
    · simp [List.cons_append, List.takeWhile_cons, h.1, h1]
    · simp [List.cons_append, List.dropWhile_cons, h.1, h2]

theorem takeWhile_length_le_of_stop {p : Char → Bool} :
    ∀ (xs : List Char) (y : Char) (ys : List Char), p y = false →
      ((xs ++ y :: ys).takeWhile p).length ≤ xs.length := by
  intro xs
  induction xs with
  | nil => intro y ys hy; simp [List.takeWhile_cons, hy]
  | cons x xs2 ih =>
    intro y ys hy
    simp only [List.cons_append, List.takeWhile_cons]
    cases hx : p x
    · simp
    · simp only [if_pos, List.length_cons]
      exact Nat.succ_le_succ (ih y ys hy)

/-! Lemmas about whitespace collapsing. -/

theorem collapseWS_cons_nonws {c : Char} (h : isWS c = false) :
    ∀ cs, collapseWS (c :: cs) = c :: collapseWS cs := by
  intro cs
  cases cs with
  | nil => simp [collapseWS, h]
  | cons y ys => simp [collapseWS, h]

theorem collapseWS_append_nonws {c : Char} (hc : isWS c = false) :
    ∀ (a b : List Char), collapseWS (a ++ c :: b) = collapseWS a ++ collapseWS (c :: b) := by
  intro a
  induction a with
  | nil => intro b; simp [collapseWS]
  | cons x a2 ih =>
    intro b
    cases a2 with
    | nil => simp [collapseWS, hc]
    | cons y a3 =>
      have ihb := ih b
      simp only [List.cons_append] at ihb ⊢
      simp only [collapseWS]
      cases hxy : isWS x && isWS y <;> simp [ihb]

theorem collapseWS_all_nonws_append {s : List Char}
    (hs : ∀ c ∈ s, isWS c = false) :
    ∀ b, collapseWS (s ++ b) = s ++ collapseWS b := by
  induction s with
  | nil => intro b; simp
  | cons x s2 ih =>
    intro b
    have hx : isWS x = false := hs x (by simp)
    simp only [List.cons_append]
    rw [collapseWS_cons_nonws hx, ih (fun c hc => hs c (by simp [hc]))]

theorem collapseWS_ends_ws {c : Char} (hc : isWS c = true) :
    ∀ a0, ∃ a1, collapseWS (a0 ++ [c]) = a1 ++ [' '] := by
  intro a0
  induction a0 with
  | nil => exact ⟨[], by simp [collapseWS, hc]⟩
  | cons x a2 ih =>
    obtain ⟨a1, ha1⟩ := ih
    cases a2 with
    | nil =>
      simp only [List.nil_append] at ha1
      simp only [List.cons_append, List.nil_append, collapseWS]
      cases hx : isWS x
      · exact ⟨[x], by simp [hc, ha1]⟩
      · refine ⟨[], ?_⟩
        simp [hc, hx]
    | cons y a3 =>
      simp only [List.cons_append, collapseWS] at ha1 ⊢
      cases hxy : isWS x && isWS y
      · exact ⟨(if isWS x then ' ' else x) :: a1, by simp [ha1]⟩
      · exact ⟨a1, ha1⟩

theorem collapseWS_ends_nonws {c : Char} (hc : isWS c = false) :
    ∀ a0, ∃ a1, collapseWS (a0 ++ [c]) = a1 ++ [c] := by
  intro a0
  induction a0 with
  | nil => exact ⟨[], by simp [collapseWS, hc]⟩
  | cons x a2 ih =>
    obtain ⟨a1, ha1⟩ := ih
    cases a2 with
    | nil =>
      simp only [List.nil_append] at ha1
      simp only [List.cons_append, List.nil_append, collapseWS, hc, Bool.and_false]
      exact ⟨[if isWS x then ' ' else x], by simp [ha1]⟩
    | cons y a3 =>
      simp only [List.cons_append, collapseWS] at ha1 ⊢
      cases hxy : isWS x && isWS y
      · exact ⟨(if isWS x then ' ' else x) :: a1, by simp [ha1]⟩
      · exact ⟨a1, ha1⟩

/-! Completeness of the position scanners. -/

theorem anyPos_complete {p : List Char → Bool} {rest : List Char} (h : p rest = true) :
    ∀ a, anyPos p (a ++ rest) = true := by
  intro a
  induction a with
  | nil =>
    cases rest with
    | nil => simpa [anyPos] using h
    | cons c cs => simp [anyPos, h]
  | cons x xs ih =>
    simp only [List.cons_append, anyPos, List.append_eq]
    rw [ih]
    simp

theorem anyPosP_self {p : Option Char → List Char → Bool} {prev : Option Char}
    {rest : List Char} (h : p prev rest = true) : anyPosP p prev rest = true := by
  cases rest with
  | nil => simpa [anyPosP] using h
  | cons c cs => simp [anyPosP, h]

theorem anyPosP_complete {p : Option Char → List Char → Bool} {c : Char}
    {rest : List Char} (h : p (some c) rest = true) :
    ∀ (a0 : List Char) (prev : Option Char), anyPosP p prev (a0 ++ c :: rest) = true := by
  intro a0
  induction a0 with
  | nil =>
    intro prev
    simp only [List.nil_append, anyPosP]
    rw [anyPosP_self h]
    simp
  | cons x xs ih =>
    intro prev
    simp only [List.cons_append, anyPosP, List.append_eq]
    rw [ih (some x)]
    simp

/-! Lemmas for the stream stripper. -/

theorem eatCI_head_ne {p : Char} {ps : List Char} {c : Char} {cs : List Char}
    (h : ¬(c.toLower = p.toLower)) : eatCI (p :: ps) (c :: cs) = none := by
  simp [eatCI, h]

theorem findEndstream_length :
    ∀ {cs suf : List Char}, findEndstream cs = some suf → suf.length + 9 ≤ cs.length := by
  intro cs
  induction cs with
  | nil => intro suf h; simp [findEndstream] at h
  | cons c cs2 ih =>
    intro suf h
    simp only [findEndstream] at h
    cases he : eatCI endstreamKw (c :: cs2) with
    | some s =>
      rw [he] at h
      cases h
      have := eatCI_length he
      simp only [endstreamKw, List.length_cons] at this ⊢
      omega
    | none =>
      rw [he] at h
      have := ih h
      simp only [List.length_cons]
      omega

theorem streamMatchAt_length {c : Char} {cs suf : List Char}
    (h : streamMatchAt (c :: cs) = some suf) : suf.length ≤ cs.length := by
  simp only [streamMatchAt] at h
  cases he : eatCI streamKw (c :: cs) with
  | none => rw [he] at h; cases h
  | some rest =>
    rw [he] at h
    dsimp only at h
    have hlen := eatCI_length he
    simp only [streamKw, List.length_cons] at hlen
    by_cases hb : boundaryAfter rest = true
    · rw [if_pos hb] at h
      have := findEndstream_length h
      omega
    · rw [if_neg hb] at h; cases h

theorem stripGo_fuelIrrel :
    ∀ (f g : Nat) (cs : List Char), cs.length ≤ f → cs.length ≤ g →
      stripGo f cs = stripGo g cs := by
  intro f
  induction f with
  | zero =>
    intro g cs hf _
    have : cs = [] := List.length_eq_zero.mp (Nat.le_zero.mp hf)
    subst this
    cases g <;> rfl
  | succ f2 ih =>
    intro g cs hf hg
    cases cs with
    | nil => cases g <;> rfl
    | cons c cs2 =>
      cases g with
      | zero => simp at hg
      | succ g2 =>
        simp only [stripGo]
        simp only [List.length_cons] at hf hg
        cases hm : streamMatchAt (c :: cs2) with
        | some suf =>
          have hsl := streamMatchAt_length hm
          dsimp only
          rw [ih g2 suf (by omega) (by omega)]
        | none =>
          dsimp only
          rw [ih g2 cs2 (by omega) (by omega)]

theorem stripStreams_cons_noMatch {c : Char} {cs : List Char}
    (h : streamMatchAt (c :: cs) = none) :
    stripStreams (c :: cs) = c :: stripStreams cs := by
  show stripGo (c :: cs).length (c :: cs) = c :: stripGo cs.length cs
  simp only [List.length_cons, stripGo, h]

theorem stripStreams_cons_match {c : Char} {cs suf : List Char}
    (h : streamMatchAt (c :: cs) = some suf) :
    stripStreams (c :: cs) = ' ' :: stripStreams suf := by
  show stripGo (c :: cs).length (c :: cs) = ' ' :: stripGo suf.length suf
  simp only [List.length_cons, stripGo, h]
  rw [stripGo_fuelIrrel cs.length suf.length suf (streamMatchAt_length h) (Nat.le_refl _)]

theorem streamMatchAt_nostart {c : Char} {cs : List Char} (h : ¬(c.toLower = 's')) :
    streamMatchAt (c :: cs) = none := by
  have : eatCI streamKw (c :: cs) = none := by
    apply eatCI_head_ne
    intro hc
    exact h (by simpa using hc)
  simp [streamMatchAt, this]

theorem findEndstream_junction :
    ∀ pay : List Char, subCI endstreamKw pay = false →
      findEndstream (pay ++ '\n' :: endstreamKw) = some [] := by
  intro pay
  induction pay with
  | nil => intro _; decide
  | cons c pay2 ih =>
    intro h
    simp only [subCI, Bool.or_eq_false_iff] at h
    obtain ⟨h1, h2⟩ := h
    have hnone : eatCI endstreamKw (c :: pay2 ++ '\n' :: endstreamKw) = none := by
      cases heq : eatCI endstreamKw ((c :: pay2) ++ '\n' :: endstreamKw) with
      | none => rfl
      | some suf =>
        rcases eatCI_extend endstreamKw (c :: pay2) ('\n' :: endstreamKw) suf heq with
          ⟨sx, hsx, _⟩ | ⟨p1, p2, hsplit, hne, hp1, hp2⟩
        · rw [hsx] at h1; simp at h1
        · cases p2 with
          | nil => exact absurd rfl hne
          | cons q qs =>
            obtain ⟨d, ds, hds, hd, _⟩ := eatCI_cons_inv hp2
            obtain rfl : d = '\n' := by
              have := congrArg (fun l => l.headD ' ') hds
              simpa using this.symm
            have hqmem : q ∈ endstreamKw := by
              rw [hsplit]
              simp
            have : ∀ x ∈ endstreamKw, ¬(Char.toLower '\n' = x.toLower) := by decide
            exact absurd hd (this q hqmem)
    simp only [List.cons_append, findEndstream, List.append_eq]
    simp only [List.cons_append] at hnone
    rw [hnone]
    exact ih h2

/-! Completeness of the hex-obfuscation window heuristic. -/

theorem hasJsWord_append_left {w : List Char} (h : hasJsWord w = true) :
    ∀ x, hasJsWord (x ++ w) = true := by
  intro x
  simp only [hasJsWord, Bool.or_eq_true] at h ⊢
  rcases h with h | h
  · exact Or.inl (subCI_append_left h x)
  · exact Or.inr (subCI_append_left h x)

theorem hexScanF_complete :
    ∀ (f : Nat) (prevRev b hx rest : List Char),
      hx.all isHexD = true → 8 ≤ hx.length →
      hasJsWord (((b.reverse ++ prevRev).take 80).reverse) = true →
      (b ++ '#' :: (hx ++ rest)).length ≤ f →
      hexScanF f prevRev (b ++ '#' :: (hx ++ rest)) = true := by
  intro f
  induction f with
  | zero =>
    intro prevRev b hx rest _ _ _ hlen
    simp [List.length_append] at hlen
  | succ f2 ih =>
    intro prevRev b hx rest hhex h8 hwin hlen
    cases b with
    | nil =>
      simp only [List.nil_append, hexScanF]
      have hk : 8 ≤ ((hx ++ rest).takeWhile isHexD).length :=
        Nat.le_trans h8 (takeWhile_length_ge hx rest hhex)
      rw [if_pos ⟨trivial, hk⟩]
      simp only [List.reverse_nil, List.nil_append] at hwin
      rw [if_pos hwin]
    | cons c b2 =>
      have hwin2 : hasJsWord (((b2.reverse ++ (c :: prevRev)).take 80).reverse) = true := by
        have : b2.reverse ++ (c :: prevRev) = (c :: b2).reverse ++ prevRev := by
          simp [List.reverse_cons, List.append_assoc]
        rw [this]
        exact hwin
      simp only [List.cons_append, hexScanF]
      by_cases hcond : c = '#' ∧ 8 ≤ ((b2 ++ '#' :: (hx ++ rest)).takeWhile isHexD).length
      · rw [if_pos hcond]
        by_cases hw : hasJsWord ((prevRev.take 80).reverse) = true
        · rw [if_pos hw]
        · rw [if_neg hw]
          have hstop : isHexD '#' = false := by decide
          have hkle : ((b2 ++ '#' :: (hx ++ rest)).takeWhile isHexD).length ≤ b2.length :=
            takeWhile_length_le_of_stop b2 '#' (hx ++ rest) hstop
          set k := ((b2 ++ '#' :: (hx ++ rest)).takeWhile isHexD).length with hkdef
          have hmle : 2 * (k / 2) ≤ b2.length := by omega
          have htake : (b2 ++ '#' :: (hx ++ rest)).take (2 * (k / 2)) =
              b2.take (2 * (k / 2)) := by
            rw [List.take_append_eq_append_take]
            rw [Nat.sub_eq_zero_of_le hmle]
            simp
          have hdrop : (b2 ++ '#' :: (hx ++ rest)).drop (2 * (k / 2)) =
              b2.drop (2 * (k / 2)) ++ '#' :: (hx ++ rest) := by
            rw [List.drop_append_eq_append_drop]
            rw [Nat.sub_eq_zero_of_le hmle]
            simp
          rw [htake, hdrop]
          apply ih
          · exact hhex
          · exact h8
          · have heq2 : (b2.drop (2 * (k / 2))).reverse ++
                ((b2.take (2 * (k / 2))).reverse ++ (c :: prevRev)) =
                b2.reverse ++ (c :: prevRev) := by
              rw [← List.append_assoc, ← List.reverse_append, List.take_append_drop]
            rw [heq2]
            exact hwin2
          · have hlen2 : (b2 ++ '#' :: (hx ++ rest)).length ≤ f2 := by
              simp only [List.cons_append, List.length_cons] at hlen
              omega
            have : (b2.drop (2 * (k / 2)) ++ '#' :: (hx ++ rest)).length ≤
                (b2 ++ '#' :: (hx ++ rest)).length := by
              simp only [List.length_append, List.length_drop]
              omega
            omega
      · rw [if_neg hcond]
        apply ih
        · exact hhex
        · exact h8
        · exact hwin2
        · simp only [List.cons_append, List.length_cons] at hlen
          omega

theorem hexScan_complete {stripped pre w hx rest : List Char}
    (hdecomp : stripped = pre ++ w ++ '#' :: (hx ++ rest))
    (hw80 : w.length ≤ 80) (hhex : hx.all isHexD = true) (h8 : 8 ≤ hx.length)
    (hword : hasJsWord w = true) : hexScan stripped = true := by
  subst hdecomp
  unfold hexScan
  apply hexScanF_complete
  · exact hhex
  · exact h8
  · have h1 : ((pre ++ w).reverse ++ ([] : List Char)) = w.reverse ++ pre.reverse := by
      simp [List.reverse_append]
    rw [h1]
    have h2 : (w.reverse ++ pre.reverse).take 80 =
        w.reverse ++ pre.reverse.take (80 - w.reverse.length) := by
      rw [List.take_append_eq_append_take]
      rw [List.take_of_length_le (by simpa using hw80)]
    rw [h2]
    have h3 : (w.reverse ++ pre.reverse.take (80 - w.reverse.length)).reverse =
        (pre.reverse.take (80 - w.reverse.length)).reverse ++ w := by
      simp [List.reverse_append]
    rw [h3]
    exact hasJsWord_append_left hword _
  · exact Nat.le_refl _

/-! Detector-level lemmas. -/

theorem checkForJavaScript_of_jsAny {content : List Char}
    (h : jsAny (collapseWS (stripStreams content)) = true) :
    checkForJavaScript content = some PdfError.scriptDetected := by
  unfold checkForJavaScript
  rw [if_pos h]

theorem checkForJavaScript_of_hexScan {content : List Char}
    (h : hexScan (stripStreams content) = true) :
    checkForJavaScript content = some PdfError.scriptDetected := by
  unfold checkForJavaScript
  by_cases h1 : jsAny (collapseWS (stripStreams content)) = true
  · rw [if_pos h1]
  · rw [if_neg h1, if_pos h]

theorem checkForJavaScript_of_angle {content : List Char}
    (h1 : angleAny (stripStreams content) = true)
    (h2 : hasJsWord (stripStreams content) = true) :
    checkForJavaScript content = some PdfError.scriptDetected := by
  unfold checkForJavaScript
  by_cases ha : jsAny (collapseWS (stripStreams content)) = true
  · rw [if_pos ha]
  · rw [if_neg ha]
    by_cases hb : hexScan (stripStreams content) = true
    · rw [if_pos hb]
    · rw [if_neg hb, if_pos (by simp [h1, h2])]

theorem checkForJavaScript_none {content : List Char}
    (h1 : jsAny (collapseWS (stripStreams content)) = false)
    (h2 : hexScan (stripStreams content) = false)
    (h3 : angleAny (stripStreams content) = false ∨ hasJsWord (stripStreams content) = false) :
    checkForJavaScript content = none := by
  unfold checkForJavaScript
  rw [if_neg (by simp [h1]), if_neg (by simp [h2]), if_neg]
  rcases h3 with h3 | h3 <;> simp [h3]

theorem checkForForms_cases (c : List Char) :
    checkForForms c = none ∨ checkForForms c = some PdfError.formDetected := by
  unfold checkForForms
  by_cases h : formsAny c = true
  · exact Or.inr (by rw [if_pos h])
  · exact Or.inl (by rw [if_neg h])

theorem checkForExternalReferences_cases (c : List Char) :
    checkForExternalReferences c = none ∨
      checkForExternalReferences c = some PdfError.externalRefDetected := by
  unfold checkForExternalReferences
  by_cases h : extAny (collapseWS c) = true
  · exact Or.inr (by rw [if_pos h])
  · exact Or.inl (by rw [if_neg h])

theorem checkForEmbeddedFiles_cases (c : List Char) :
    checkForEmbeddedFiles c = none ∨
      checkForEmbeddedFiles c = some PdfError.embeddedFileDetected := by
  unfold checkForEmbeddedFiles
  by_cases h : embAny c = true
  · exact Or.inr (by rw [if_pos h])
  · exact Or.inl (by rw [if_neg h])

theorem isEmpty_false_of_ne {data : List Char} (h : data ≠ []) : data.isEmpty = false := by
  cases data with
  | nil => exact absurd rfl h
  | cons c cs => rfl

theorem Check_eq_of_js {data : List Char} {e : PdfError} (hh : headerOk data = true)
    (hj : checkForJavaScript data = some e) : Check data = some e := by
  unfold Check
  rw [isEmpty_false_of_ne (headerOk_ne_nil hh), hh]
  simp [hj]

theorem Check_eq_of_forms {data : List Char} {e : PdfError} (hh : headerOk data = true)
    (hj : checkForJavaScript data = none) (hf : checkForForms data = some e) :
    Check data = some e := by
  unfold Check
  rw [isEmpty_false_of_ne (headerOk_ne_nil hh), hh]
  simp [hj, hf]

theorem Check_eq_of_ext {data : List Char} {e : PdfError} (hh : headerOk data = true)
    (hj : checkForJavaScript data = none) (hf : checkForForms data = none)
    (he : checkForExternalReferences data = some e) : Check data = some e := by
  unfold Check
  rw [isEmpty_false_of_ne (headerOk_ne_nil hh), hh]
  simp [hj, hf, he]

theorem Check_all_pass {data : List Char} (hh : headerOk data = true)
    (hj : checkForJavaScript data = none) (hf : checkForForms data = none)
    (he : checkForExternalReferences data = none)
    (hb : checkForEmbeddedFiles data = none) : Check data = none := by
  unfold Check
  rw [isEmpty_false_of_ne (headerOk_ne_nil hh), hh]
  simp [hj, hf, he, hb]

theorem Check_ne_script {data : List Char} (hh : headerOk data = true)
    (hj : checkForJavaScript data = none) :
    Check data ≠ some PdfError.scriptDetected := by
  unfold Check
  rw [isEmpty_false_of_ne (headerOk_ne_nil hh), hh]
  rcases checkForForms_cases data with hf | hf
  · rcases checkForExternalReferences_cases data with he | he
    · rcases checkForEmbeddedFiles_cases data with hb | hb
      · simp [hj, hf, he, hb]
      · simp [hj, hf, he, hb]
    · simp [hj, hf, he]
  · simp [hj, hf]

/-! Completeness of the individual pattern matchers. -/

theorem atSlashKw_complete {kw w k rest : List Char}
    (hw : w.all isWS = true) (hmap : k.map Char.toLower = kw.map Char.toLower)
    (hk : ∀ c ∈ k, isWS c = false) (hne : k ≠ []) :
    atSlashKw kw ('/' :: (w ++ (k ++ rest))) = true := by
  cases k with
  | nil => exact absurd rfl hne
  | cons k0 k2 =>
    simp only [atSlashKw]
    have hs : skipWS (w ++ ((k0 :: k2) ++ rest)) = k0 :: (k2 ++ rest) := by
      rw [List.cons_append]
      exact skipWS_append hw k0 (k2 ++ rest) (hk k0 (by simp))
    rw [hs]
    rw [show k0 :: (k2 ++ rest) = (k0 :: k2) ++ rest from rfl]
    rw [eatCI_of_map_toLower kw (k0 :: k2) rest hmap]
    simp

theorem atSlashKw2_complete {k1 k2 w1 f w2 w3 k rest : List Char}
    (hw1 : w1.all isWS = true) (hw2 : w2.all isWS = true) (hw3 : w3.all isWS = true)
    (hf : f.map Char.toLower = k1.map Char.toLower)
    (hk : k.map Char.toLower = k2.map Char.toLower)
    (hfh : ∀ c ∈ f, isWS c = false) (hkh : ∀ c ∈ k, isWS c = false)
    (hfne : f ≠ []) (hkne : k ≠ []) :
    atSlashKw2 k1 k2 ('/' :: (w1 ++ (f ++ (w2 ++ ('/' :: (w3 ++ (k ++ rest))))))) = true := by
  cases f with
  | nil => exact absurd rfl hfne
  | cons f0 f2 =>
    cases k with
    | nil => exact absurd rfl hkne
    | cons q0 q2 =>
      simp only [atSlashKw2]
      have hs1 : skipWS (w1 ++ ((f0 :: f2) ++ (w2 ++ ('/' :: (w3 ++ ((q0 :: q2) ++ rest)))))) =
          f0 :: (f2 ++ (w2 ++ ('/' :: (w3 ++ ((q0 :: q2) ++ rest))))) := by
        rw [List.cons_append]
        exact skipWS_append hw1 f0 _ (hfh f0 (by simp))
      rw [hs1]
      rw [show f0 :: (f2 ++ (w2 ++ ('/' :: (w3 ++ ((q0 :: q2) ++ rest))))) =
          (f0 :: f2) ++ (w2 ++ ('/' :: (w3 ++ ((q0 :: q2) ++ rest)))) from rfl]
      rw [eatCI_of_map_toLower k1 (f0 :: f2) _ hf]
      dsimp only
      have hs2 : skipWS (w2 ++ ('/' :: (w3 ++ ((q0 :: q2) ++ rest)))) =
          '/' :: (w3 ++ ((q0 :: q2) ++ rest)) :=
        skipWS_append hw2 '/' _ (by decide)
      rw [hs2]
      dsimp only
      have hs3 : skipWS (w3 ++ ((q0 :: q2) ++ rest)) = q0 :: (q2 ++ rest) := by
        rw [List.cons_append]
        exact skipWS_append hw3 q0 _ (hkh q0 (by simp))
      rw [hs3]
      rw [show q0 :: (q2 ++ rest) = (q0 :: q2) ++ rest from rfl]
      rw [eatCI_of_map_toLower k2 (q0 :: q2) rest hk]
      simp

theorem atAngleHex_complete {h b : List Char} (hhex : h.all isHexD = true)
    (hlen : 4 ≤ h.length) : atAngleHex ('<' :: (h ++ '>' :: b)) = true := by
  obtain ⟨ht, hd⟩ := takeWhile_append_all h '>' b hhex (by decide)
  simp only [atAngleHex]
  rw [ht, hd]
  simp only [hlen]
  simp

theorem atHttpUrl_http {s b : List Char} (h : s.map Char.toLower = httpUrlL) :
    atHttpUrl (s ++ b) = true := by
  have h2 : s.map Char.toLower = (httpL ++ schemeSepL).map Char.toLower := by
    rw [h]; decide
  have h3 := eatCI_of_map_toLower (httpL ++ schemeSepL) s b h2
  rw [eatCI_append_split] at h3
  cases he : eatCI httpL (s ++ b) with
  | none => rw [he] at h3; simp at h3
  | some r =>
    rw [he] at h3
    simp only [Option.some_bind] at h3
    unfold atHttpUrl
    rw [he]
    simp [h3]

theorem atHttpUrl_https {s b : List Char} (h : s.map Char.toLower = httpsUrlL) :
    atHttpUrl (s ++ b) = true := by
  have h2 : s.map Char.toLower = (httpL ++ ('s' :: schemeSepL)).map Char.toLower := by
    rw [h]; decide
  have h3 := eatCI_of_map_toLower (httpL ++ ('s' :: schemeSepL)) s b h2
  rw [eatCI_append_split] at h3
  cases he : eatCI httpL (s ++ b) with
  | none => rw [he] at h3; simp at h3
  | some r =>
    rw [he] at h3
    simp only [Option.some_bind] at h3
    obtain ⟨d, ds, hds, hd, h4⟩ := eatCI_cons_inv h3
    have hd2 : d.toLower = 's' := by rw [hd]; decide
    unfold atHttpUrl
    rw [he, hds]
    simp [hd2, h4]

theorem atFileUrl_complete {s b : List Char} (h : s.map Char.toLower = fileUrlL) :
    atFileUrl (s ++ b) = true := by
  have h2 : s.map Char.toLower = fileUrlL.map Char.toLower := by rw [h]; decide
  unfold atFileUrl
  rw [eatCI_of_map_toLower fileUrlL s b h2]
  rfl

theorem atFtpUrl_complete {s b : List Char} (h : s.map Char.toLower = ftpUrlL) :
    atFtpUrl (s ++ b) = true := by
  have h2 : s.map Char.toLower = ftpUrlL.map Char.toLower := by rw [h]; decide
  unfold atFtpUrl
  rw [eatCI_of_map_toLower ftpUrlL s b h2]
  rfl

theorem extPatternAt_url {prev : Option Char} {s b : List Char}
    (hprev : noWordBefore prev = true)
    (h : s.map Char.toLower = httpUrlL ∨ s.map Char.toLower = httpsUrlL ∨
      s.map Char.toLower = ftpUrlL ∨ s.map Char.toLower = fileUrlL) :
    extPatternAt prev (s ++ b) = true := by
  unfold extPatternAt
  have hurl : (atHttpUrl (s ++ b) || atFileUrl (s ++ b) || atFtpUrl (s ++ b)) = true := by
    rcases h with h | h | h | h
    · simp [atHttpUrl_http h]
    · simp [atHttpUrl_https h]
    · simp [atFtpUrl_complete h]
    · simp [atFileUrl_complete h]
  simp only [hprev, hurl, Bool.true_and, Bool.or_true]

/-! Claim theorems. -/

/-- Claim C6: structure validation — `Check` of the empty buffer is
`InvalidStructure`, and `Check` of any buffer whose first
`min 1024 length` bytes do not contain the literal substring `%PDF-` is
`InvalidStructure` regardless of the content after that prefix; the
result is fixed at the structure step, before any detector runs. -/
theorem structure_validation :
    Check [] = some PdfError.invalidStructure ∧
    ∀ data : List Char, subLit pdfMagicL (data.take 1024) = false →
      Check data = some PdfError.invalidStructure := by
  constructor
  · decide
  · intro data h
    unfold Check
    by_cases hd : data.isEmpty = true
    · rw [if_pos hd]
    · rw [if_neg hd, if_pos (by simp [headerOk, h])]

/-- Witness for claim C6 at a concrete headerless buffer. -/
theorem structure_validation_witness :
    Check exNoHeader.toList = some PdfError.invalidStructure :=
  structure_validation.2 exNoHeader.toList (by decide)

set_option maxRecDepth 40000 in
/-- Claim C10: the scripting-vocabulary regex has no word boundaries, so a
buffer with a valid header, no direct script-pattern match and no hash-hex
window match, containing an angle-bracket hex string of 4 hex digits and
the word `json` (which merely contains `js` as a substring), makes `Check`
return `ScriptDetected` through the co-occurrence heuristic. -/
theorem js_substring_heuristic :
    jsAny (collapseWS (stripStreams exJsonAngle.toList)) = false ∧
    hexScan (stripStreams exJsonAngle.toList) = false ∧
    Check exJsonAngle.toList = some PdfError.scriptDetected := by
  refine ⟨by decide, by decide, by decide⟩

set_option maxRecDepth 40000 in
/-- Counterexample to claim C1 as stated: this buffer matches both a
script pattern and a form pattern, yet `Check` returns `InvalidStructure`
rather than `ScriptDetected`, because the buffer has no `%PDF-` header and
the structure check runs before every detector. -/
theorem check_script_priority_counterexample :
    jsAny (collapseWS (stripStreams exScriptForm.toList)) = true ∧
    formsAny exScriptForm.toList = true ∧
    Check exScriptForm.toList = some PdfError.invalidStructure ∧
    Check exScriptForm.toList ≠ some PdfError.scriptDetected := by
  refine ⟨by decide, by decide, by decide, by decide⟩

/-- Claim C1 (amended): for every buffer that passes the structure check,
if a script pattern matches the stripped and collapsed text then `Check`
returns `ScriptDetected`, also when a forms, external-reference or
embedded-file pattern matches the same buffer — the script detector runs
first among the four detectors and short-circuits. -/
theorem check_script_priority (data : List Char) (hh : headerOk data = true)
    (hjs : jsAny (collapseWS (stripStreams data)) = true)
    (_hother : formsAny data = true ∨ extAny (collapseWS data) = true ∨
      embAny data = true) :
    Check data = some PdfError.scriptDetected :=
  Check_eq_of_js hh (checkForJavaScript_of_jsAny hjs)

set_option maxRecDepth 40000 in
/-- Witness for the amended claim C1 at a concrete buffer matching both a
script and a form pattern. -/
theorem check_script_priority_witness :
    Check exHdrScriptForm.toList = some PdfError.scriptDetected :=
  check_script_priority exHdrScriptForm.toList (by decide) (by decide)
    (Or.inl (by decide))

set_option maxRecDepth 40000 in
/-- Counterexample to claim C2 as stated: whitespace inserted inside the
keyword itself (a newline between `Java` and `Script`) survives whitespace
collapsing as a single space, no script pattern matches, and `Check`
accepts the buffer, so the normalization does not defeat whitespace
obfuscation inside a keyword token. -/
theorem script_marker_internal_ws_counterexample :
    collapseWS (stripStreams exSplitKeyword.toList) = exSplitCollapsed.toList ∧
    Check exSplitKeyword.toList = none := by
  refine ⟨by decide, by decide⟩

/-- Claim C2 (amended): for every buffer with a valid header whose
stream-stripped, whitespace-collapsed text contains a slash followed by
optional whitespace and then, case-insensitively, one of the scripting
keywords (`JavaScript`, `JS`, `OpenAction`), `Check` returns
`ScriptDetected`; the tolerated whitespace sits between the slash and the
keyword, not inside the keyword. -/
theorem script_marker_whitespace (data a w k b kw : List Char)
    (hh : headerOk data = true)
    (hkw : kw = javascriptL ∨ kw = jsL ∨ kw = openActionL)
    (hdecomp : collapseWS (stripStreams data) = a ++ '/' :: (w ++ (k ++ b)))
    (hws : w.all isWS = true)
    (hmap : k.map Char.toLower = kw) :
    Check data = some PdfError.scriptDetected := by
  apply Check_eq_of_js hh
  apply checkForJavaScript_of_jsAny
  rw [hdecomp]
  unfold jsAny
  apply anyPos_complete
  have hkne : k ≠ [] := by
    intro hk0
    subst hk0
    rcases hkw with rfl | rfl | rfl <;> simp [javascriptL, jsL, openActionL] at hmap
  have hmap2 : k.map Char.toLower = kw.map Char.toLower := by
    rw [hmap]
    rcases hkw with rfl | rfl | rfl <;> decide
  have hknw : ∀ c ∈ k, isWS c = false := by
    apply all_nonws_of_ciEq hmap2
    rcases hkw with rfl | rfl | rfl <;> decide
  have hsl : atSlashKw kw ('/' :: (w ++ (k ++ b))) = true :=
    atSlashKw_complete hws hmap2 hknw hkne
  unfold jsPatternAt
  rcases hkw with rfl | rfl | rfl <;> simp [hsl]

set_option maxRecDepth 40000 in
/-- Witness for the amended claim C2 at a concrete buffer spelling the
marker as `/ JAVASCRIPT`. -/
theorem script_marker_whitespace_witness :
    Check exSpacedMarker.toList = some PdfError.scriptDetected :=
  script_marker_whitespace exSpacedMarker.toList exSpacedA.toList [' ']
    exSpacedK.toList exSpacedB.toList javascriptL (by decide) (Or.inl rfl)
    (by decide) (by decide) (by decide)

/-- Claim C5: angle-bracket co-occurrence heuristic — when no direct
script pattern and no hash-hex window heuristic matched, the script
detector reports `ScriptDetected` whenever the stream-stripped text
contains an angle-bracket-delimited hex string of 4 or more hex digits and
the scripting vocabulary occurs anywhere in that same text; and when
neither condition pair holds, the script detector passes. -/
theorem angle_cooccurrence_heuristic (content a h b : List Char)
    (h1 : jsAny (collapseWS (stripStreams content)) = false)
    (h2 : hexScan (stripStreams content) = false) :
    (stripStreams content = a ++ '<' :: (h ++ '>' :: b) → h.all isHexD = true →
      4 ≤ h.length → hasJsWord (stripStreams content) = true →
      checkForJavaScript content = some PdfError.scriptDetected) ∧
    (angleAny (stripStreams content) = false ∨ hasJsWord (stripStreams content) = false →
      checkForJavaScript content = none) := by
  constructor
  · intro hdec hhex hlen hword
    apply checkForJavaScript_of_angle
    · rw [hdec]
      unfold angleAny
      exact anyPos_complete (atAngleHex_complete hhex hlen) a
    · exact hword
  · intro h3
    exact checkForJavaScript_none h1 h2 h3

set_option maxRecDepth 40000 in
/-- Witness for claim C5: the script detector flags headerless text
containing `json` and an angle-bracket hex string, with no direct pattern
and no hash-hex window match. -/
theorem angle_cooccurrence_witness :
    checkForJavaScript exJsonNoHdr.toList = some PdfError.scriptDetected :=
  (angle_cooccurrence_heuristic exJsonNoHdr.toList exJsonA.toList exJsonH.toList []
    (by decide) (by decide)).1 (by decide) (by decide) (by decide) (by decide)

/-- Claim C4: hex-obfuscation window heuristic — every buffer with a
valid header whose stream-stripped text contains a hash-prefixed run of at
least 8 hex digits with the scripting vocabulary occurring within the 80
characters immediately preceding the hash makes `Check` return
`ScriptDetected`, also when no literal marker is present. -/
theorem hex_window_heuristic (data pre w hx rest : List Char)
    (hh : headerOk data = true)
    (hdec : stripStreams data = pre ++ w ++ '#' :: (hx ++ rest))
    (hw80 : w.length ≤ 80) (hhex : hx.all isHexD = true) (h8 : 8 ≤ hx.length)
    (hword : hasJsWord w = true) :
    Check data = some PdfError.scriptDetected :=
  Check_eq_of_js hh
    (checkForJavaScript_of_hexScan (hexScan_complete hdec hw80 hhex h8 hword))

set_option maxRecDepth 40000 in
/-- Witness for claim C4 at a concrete buffer holding `js #DEADBEEF`. -/
theorem hex_window_heuristic_witness :
    Check exHexData.toList = some PdfError.scriptDetected :=
  hex_window_heuristic exHexData.toList [] exHexW.toList exHexHx.toList []
    (by decide) (by decide) (by decide) (by decide) (by decide) (by decide)

/-- Claim C9: clean-document pass — every buffer with a valid header on
which no script pattern, no hex heuristic, no form pattern, no
external-reference pattern and no embedded-file pattern matches is
accepted by `Check`. -/
theorem clean_document_pass (data : List Char) (hh : headerOk data = true)
    (h1 : jsAny (collapseWS (stripStreams data)) = false)
    (h2 : hexScan (stripStreams data) = false)
    (h3 : angleAny (stripStreams data) = false ∨ hasJsWord (stripStreams data) = false)
    (h4 : formsAny data = false) (h5 : extAny (collapseWS data) = false)
    (h6 : embAny data = false) : Check data = none := by
  apply Check_all_pass hh (checkForJavaScript_none h1 h2 h3)
  · unfold checkForForms
    rw [if_neg (by simp [h4])]
  · unfold checkForExternalReferences
    rw [if_neg (by simp [h5])]
  · unfold checkForEmbeddedFiles
    rw [if_neg (by simp [h6])]

set_option maxRecDepth 400000 in
/-- Witness for claim C9: a minimal well-formed document with only
catalog, pages and page objects passes `Check`. -/
theorem clean_document_witness : Check exCleanPdf.toList = none :=
  clean_document_pass exCleanPdf.toList (by decide) (by decide) (by decide)
    (Or.inl (by decide)) (by decide) (by decide) (by decide)

/-- Claim C8: form-field subtype coverage — a buffer with a valid header
that does not trigger the script detector and contains, case-insensitively
and with optional whitespace around the delimiters, one of `/FT/Tx`,
`/FT/Ch`, `/FT/Btn` or `/FT/Sig` in its raw unnormalized text makes
`Check` return `FormDetected`. -/
theorem form_subtype_coverage (data a w1 f w2 w3 k b kw : List Char)
    (hh : headerOk data = true)
    (hjs : checkForJavaScript data = none)
    (hkw : kw = txL ∨ kw = chL ∨ kw = btnL ∨ kw = sigL)
    (hdec : data = a ++ '/' :: (w1 ++ (f ++ (w2 ++ ('/' :: (w3 ++ (k ++ b)))))))
    (hw1 : w1.all isWS = true) (hw2 : w2.all isWS = true) (hw3 : w3.all isWS = true)
    (hfm : f.map Char.toLower = ftL) (hkm : k.map Char.toLower = kw) :
    Check data = some PdfError.formDetected := by
  apply Check_eq_of_forms hh hjs
  have hfne : f ≠ [] := by
    intro h0
    subst h0
    simp [ftL] at hfm
  have hkne : k ≠ [] := by
    intro h0
    subst h0
    rcases hkw with rfl | rfl | rfl | rfl <;> simp [txL, chL, btnL, sigL] at hkm
  have hfm2 : f.map Char.toLower = ftL.map Char.toLower := by
    rw [hfm]
    decide
  have hkm2 : k.map Char.toLower = kw.map Char.toLower := by
    rw [hkm]
    rcases hkw with rfl | rfl | rfl | rfl <;> decide
  have hfh : ∀ c ∈ f, isWS c = false := all_nonws_of_ciEq hfm2 (by decide)
  have hkh : ∀ c ∈ k, isWS c = false := by
    apply all_nonws_of_ciEq hkm2
    rcases hkw with rfl | rfl | rfl | rfl <;> decide
  have hat := @atSlashKw2_complete ftL kw w1 f w2 w3 k b hw1 hw2 hw3 hfm2 hkm2 hfh hkh hfne hkne
  have hforms : formsAny data = true := by
    rw [hdec]
    unfold formsAny
    apply anyPos_complete
    unfold formPatternAt
    rcases hkw with rfl | rfl | rfl | rfl <;> simp [hat]
  unfold checkForForms
  rw [if_pos hforms]

set_option maxRecDepth 40000 in
/-- Witness for claim C8 at a concrete buffer holding `/FT/Tx`. -/
theorem form_subtype_witness : Check exFormData.toList = some PdfError.formDetected :=
  form_subtype_coverage exFormData.toList exFormA.toList [] exFormF.toList [] []
    exFormK.toList [] txL (by decide) (by decide) (Or.inl rfl) (by decide)
    (by decide) (by decide) (by decide) (by decide) (by decide)

/-- Claim C7: the external-reference detector runs on whitespace-collapsed
but not stream-stripped text, so a buffer with a valid header that escapes
the script and form detectors and contains a URL-scheme substring
(`http://`, `https://`, `ftp://` or `file://`, case-insensitively,
preceded by the start of the buffer or a non-word character) anywhere —
including inside a stream region — makes `Check` return
`ExternalRefDetected`. -/
theorem external_scheme_detection (data a s b : List Char)
    (hh : headerOk data = true)
    (hjs : checkForJavaScript data = none)
    (hfm : checkForForms data = none)
    (hdec : data = a ++ (s ++ b))
    (hsch : s.map Char.toLower = httpUrlL ∨ s.map Char.toLower = httpsUrlL ∨
      s.map Char.toLower = ftpUrlL ∨ s.map Char.toLower = fileUrlL)
    (hbound : a = [] ∨ ∃ a0 c, a = a0 ++ [c] ∧ (isWS c = true ∨ isWordChar c = false)) :
    Check data = some PdfError.externalRefDetected := by
  apply Check_eq_of_ext hh hjs hfm
  have hsnw : ∀ c ∈ s, isWS c = false := by
    rcases hsch with h | h | h | h
    · exact @all_nonws_of_ciEq s httpUrlL (by rw [h]; decide) (by decide)
    · exact @all_nonws_of_ciEq s httpsUrlL (by rw [h]; decide) (by decide)
    · exact @all_nonws_of_ciEq s ftpUrlL (by rw [h]; decide) (by decide)
    · exact @all_nonws_of_ciEq s fileUrlL (by rw [h]; decide) (by decide)
  have hsne : s ≠ [] := by
    intro h0
    subst h0
    rcases hsch with h | h | h | h <;>
      simp [httpUrlL, httpsUrlL, ftpUrlL, fileUrlL] at h
  have hcoll : collapseWS data = collapseWS a ++ (s ++ collapseWS b) := by
    rw [hdec]
    cases s with
    | nil => exact absurd rfl hsne
    | cons s0 s2 =>
      have h0 : isWS s0 = false := hsnw s0 (by simp)
      rw [show (s0 :: s2) ++ b = s0 :: (s2 ++ b) from rfl]
      rw [collapseWS_append_nonws h0 a (s2 ++ b)]
      rw [show collapseWS (s0 :: (s2 ++ b)) = collapseWS ((s0 :: s2) ++ b) from rfl]
      rw [collapseWS_all_nonws_append hsnw b]
  have hext : extAny (collapseWS data) = true := by
    rw [hcoll]
    unfold extAny
    rcases hbound with rfl | ⟨a0, c, rfl, hc⟩
    · rw [show collapseWS ([] : List Char) = [] from rfl, List.nil_append]
      exact anyPosP_self (extPatternAt_url rfl hsch)
    · have hc2 : ∃ a1 c2, collapseWS (a0 ++ [c]) = a1 ++ [c2] ∧ isWordChar c2 = false := by
        rcases hc with hcw | hcw
        · obtain ⟨a1, ha1⟩ := collapseWS_ends_ws hcw a0
          exact ⟨a1, ' ', ha1, by decide⟩
        · by_cases hws : isWS c = true
          · obtain ⟨a1, ha1⟩ := collapseWS_ends_ws hws a0
            exact ⟨a1, ' ', ha1, by decide⟩
          · obtain ⟨a1, ha1⟩ := collapseWS_ends_nonws (by simpa using hws) a0
            exact ⟨a1, c, ha1, hcw⟩
      obtain ⟨a1, c2, ha1, hc2w⟩ := hc2
      rw [ha1]
      rw [show (a1 ++ [c2]) ++ (s ++ collapseWS b) = a1 ++ c2 :: (s ++ collapseWS b) by
        simp]
      apply anyPosP_complete
      apply extPatternAt_url
      · simp [noWordBefore, hc2w]
      · exact hsch
  unfold checkForExternalReferences
  rw [if_pos hext]

set_option maxRecDepth 40000 in
/-- Witness for claim C7 at a concrete buffer whose only URL sits inside a
stream region. -/
theorem external_scheme_witness :
    Check exUrlData.toList = some PdfError.externalRefDetected :=
  external_scheme_detection exUrlData.toList exUrlA.toList exUrlS.toList
    exUrlB.toList (by decide) (by decide) (by decide) (by decide)
    (Or.inl (by decide)) (Or.inr ⟨exUrlA0.toList, '\n', by decide, Or.inl (by decide)⟩)

/-- Claim C3: stream-exclusion invariant — for every payload containing no
stream-end keyword, the buffer consisting of a header followed by one
`stream ... endstream` region holding that payload has the whole region
replaced by a single space, the script detector does not flag it, and
`Check` does not return `ScriptDetected` on its account, whatever
dangerous byte sequences the payload holds. -/
theorem stream_exclusion_invariant (payload : List Char)
    (hp : subCI endstreamKw payload = false) :
    stripStreams (pdfStreamFrame payload) = pdfStreamStripped ∧
    checkForJavaScript (pdfStreamFrame payload) = none ∧
    Check (pdfStreamFrame payload) ≠ some PdfError.scriptDetected := by
  have hmatch : streamMatchAt ('s' :: 't' :: 'r' :: 'e' :: 'a' :: 'm' ::
      ('\n' :: (payload ++ pdfStreamEnd))) = some [] := by
    have h1 : eatCI streamKw ('s' :: 't' :: 'r' :: 'e' :: 'a' :: 'm' ::
        ('\n' :: (payload ++ pdfStreamEnd))) =
        some ('\n' :: (payload ++ pdfStreamEnd)) := by
      simp [streamKw, eatCI]
    unfold streamMatchAt
    rw [h1]
    dsimp only
    rw [if_pos (by simp [boundaryAfter]; decide)]
    have h2 : '\n' :: (payload ++ pdfStreamEnd) =
        ('\n' :: payload) ++ ('\n' :: endstreamKw) := by
      simp [pdfStreamEnd]
    rw [h2]
    apply findEndstream_junction
    have h3 : eatCI endstreamKw ('\n' :: payload) = none := by
      show eatCI ('e' :: ['n', 'd', 's', 't', 'r', 'e', 'a', 'm']) ('\n' :: payload) = none
      exact eatCI_head_ne (by decide)
    simp only [subCI]
    simp [h3, hp]
  have hstrip : stripStreams (pdfStreamFrame payload) = pdfStreamStripped := by
    unfold pdfStreamFrame pdfStreamHdr
    simp only [List.cons_append, List.nil_append]
    rw [stripStreams_cons_noMatch (@streamMatchAt_nostart '%' _ (by decide))]
    rw [stripStreams_cons_noMatch (@streamMatchAt_nostart 'P' _ (by decide))]
    rw [stripStreams_cons_noMatch (@streamMatchAt_nostart 'D' _ (by decide))]
    rw [stripStreams_cons_noMatch (@streamMatchAt_nostart 'F' _ (by decide))]
    rw [stripStreams_cons_noMatch (@streamMatchAt_nostart '-' _ (by decide))]
    rw [stripStreams_cons_noMatch (@streamMatchAt_nostart '1' _ (by decide))]
    rw [stripStreams_cons_noMatch (@streamMatchAt_nostart '.' _ (by decide))]
    rw [stripStreams_cons_noMatch (@streamMatchAt_nostart '4' _ (by decide))]
    rw [stripStreams_cons_noMatch (@streamMatchAt_nostart '\n' _ (by decide))]
    rw [stripStreams_cons_match hmatch]
    rfl
  have hjs : checkForJavaScript (pdfStreamFrame payload) = none := by
    unfold checkForJavaScript
    rw [hstrip]
    decide
  have hhdr : headerOk (pdfStreamFrame payload) = true := by
    have hex : ∃ suf, eatLit pdfMagicL (pdfStreamFrame payload) = some suf := ⟨_, rfl⟩
    obtain ⟨suf, hs⟩ := hex
    exact headerOk_of_eatLit hs
  exact ⟨hstrip, hjs, Check_ne_script hhdr hjs⟩

set_option maxRecDepth 40000 in
/-- Witness for claim C3: the dangerous text `app.` inside the stream
region does not make the script detector fire. -/
theorem stream_exclusion_witness :
    checkForJavaScript (pdfStreamFrame exStreamPayload.toList) = none ∧
    Check (pdfStreamFrame exStreamPayload.toList) ≠ some PdfError.scriptDetected :=
  ⟨(stream_exclusion_invariant exStreamPayload.toList (by decide)).2.1,
   (stream_exclusion_invariant exStreamPayload.toList (by decide)).2.2⟩
